import Mathlib

/-!
# Player Role Dashboard — verification of the core engine

Shallow embedding of the core of the Player Role Dashboard repository
(`src/app.py`, `src/utils/data_loader.py`, `src/utils/cluster_mapping.py`,
`src/utils/visualizations.py`).

Modelling conventions:
* Python floats are modelled as exact rationals (`ℚ`);
* Python strings are sequences of Unicode scalar values (`List Char`),
  which matches Python's code-point view of `str`;
* pandas DataFrames are Lean lists of rows in table order; the pandas
  row index of a freshly loaded frame is the row position, which
  filtering preserves;
* Python dicts are association lists in insertion order with distinct
  keys maintained by the update operation.
-/

namespace PlayerRole

/-!
### Stable sorting

`list.sort(key=...)` in Python and `DataFrame.nsmallest(n, col)` in pandas
(with its default `keep='first'`) are stable: entries with equal keys keep
their original relative order, and `reverse=True` sorts descending while
still keeping equal-key entries in original order.  We model them by a
stable insertion sort.  `sortAscBy` sorts ascending by `key`; `sortDescBy`
models `sort(key=..., reverse=True)`.
-/

variable {α : Type*} {β : Type*} [LinearOrder β]

def insertAscBy (key : α → β) (a : α) : List α → List α
  | [] => [a]
  | b :: l => if key a ≤ key b then a :: b :: l else b :: insertAscBy key a l

def sortAscBy (key : α → β) : List α → List α
  | [] => []
  | a :: l => insertAscBy key a (sortAscBy key l)

def insertDescBy (key : α → β) (a : α) : List α → List α
  | [] => [a]
  | b :: l => if key b ≤ key a then a :: b :: l else b :: insertDescBy key a l

def sortDescBy (key : α → β) : List α → List α
  | [] => []
  | a :: l => insertDescBy key a (sortDescBy key l)

/-!
### AttributeProfiler: display normalization

`src/utils/visualizations.py`, `create_radar_chart`, lines 187–203:
`normalized = [max(0, min(20, 10 + v * 3.33)) for v in values]`.
The float literal `3.33` is modelled as the exact rational `333/100`
(the claimed input/output pairs are unaffected: in binary floating point
`10 + 3*3.33` is `19.989999…`, likewise distinct from `20.0`). -/
def normalize_for_display (z : ℚ) : ℚ :=
  max 0 (min 20 (10 + z * (333 / 100)))

/-!
### NeighborFinder

`src/utils/data_loader.py`, `find_similar_players`, lines 35–67:
filter the table to the target's cluster, attach the Euclidean distance in
`(pc1, pc2)` space, drop rows whose `Name` equals the target's, then
`nsmallest(n, 'distance')`.

A player row; only the columns the core reads are modelled (the returned
frame also carries `Club`, `CA`, `PA`, which the similarity logic never
inspects). -/
structure PlayerRow where
  Name : String
  Club : String
  CA : Int
  PA : Int
  role_cluster : Int
  pc1 : ℚ
  pc2 : ℚ
  deriving Repr, DecidableEq

/-- Squared Euclidean distance in PCA space.  The source stores
`sqrt((Δpc1)² + (Δpc2)²)`; since `sqrt` is strictly monotone on
nonnegative reals, comparisons and ties of distances coincide with
comparisons and ties of squared distances, so the ordering claims are
stated over this exact rational quantity. -/
def dist2 (p q : PlayerRow) : ℚ :=
  (q.pc1 - p.pc1) ^ 2 + (q.pc2 - p.pc2) ^ 2

/-- The candidate rows of `find_similar_players` just before
`nsmallest`: same-cluster rows, with the distance column attached, the
target's name excluded. -/
def similarCandidates (p : PlayerRow) (players_df : List PlayerRow) :
    List (PlayerRow × ℚ) :=
  ((players_df.filter fun q => q.role_cluster == p.role_cluster).map
      fun q => (q, dist2 p q)).filter fun x => !(x.1.Name == p.Name)

/-- `find_similar_players(player_row, players_df, n)`:
`nsmallest(n, 'distance')` with the default `keep='first'` is the stable
ascending sort by the distance column followed by `head n`. -/
def find_similar_players (p : PlayerRow) (players_df : List PlayerRow)
    (n : ℕ) : List (PlayerRow × ℚ) :=
  (sortAscBy (fun x => x.2) (similarCandidates p players_df)).take n

/-!
### ClusterProbabilityRanker

`src/utils/data_loader.py`, `get_top_cluster_probabilities`, lines 70–80:
pair indices 0–4 with the `cluster_i_prob` columns, `sort` descending by
probability (Python's stable sort with `reverse=True`), return the first 3.
The row's five probability columns are modelled as a function `prob`. -/
def get_top_cluster_probabilities (prob : ℕ → ℚ) : List (ℕ × ℚ) :=
  (sortDescBy (fun x => x.2) ((List.range 5).map fun i => (i, prob i))).take 3

/-!
### ClusterCentroidStore

`src/utils/data_loader.py`, `get_centroids_dict`, lines 23–32, and
`src/utils/cluster_mapping.py`, `get_top_attributes_for_cluster`,
lines 34–49. -/

/-- One row of the centroid table (`cluster_centroids_k5.csv`): long
format, one row per (cluster, attribute). -/
structure CentroidRow where
  cluster : Int
  attr : String
  z : ℚ
  deriving Repr, DecidableEq

/-- Python dict update: an existing key keeps its position and gets the
new value; a new key is appended.  This is `dict(zip(keys, values))`
semantics when folded over the pairs. -/
def dictInsert (d : List (String × ℚ)) (k : String) (v : ℚ) :
    List (String × ℚ) :=
  if d.any fun p => p.1 == k then
    d.map fun p => if p.1 == k then (k, v) else p
  else d ++ [(k, v)]

/-- `centroids_df['cluster'].unique()`: cluster ids in order of first
appearance. -/
def uniqueClusters (rows : List CentroidRow) : List Int :=
  rows.foldl (fun acc r => if acc.contains r.cluster then acc else acc ++ [r.cluster]) []

/-- `get_centroids_dict(centroids_df)`: for each cluster id (in first
appearance order) build `dict(zip(cluster_data['attr'], cluster_data['z']))`. -/
def get_centroids_dict (rows : List CentroidRow) :
    List (Int × List (String × ℚ)) :=
  (uniqueClusters rows).map fun c =>
    (c, (rows.filter fun r => r.cluster == c).foldl
          (fun d r => dictInsert d r.attr r.z) [])

/-- `get_top_attributes_for_cluster(centroids_dict, cluster_id, n)`:
empty when the cluster id is absent; otherwise
`sorted(attrs.items(), key=lambda x: abs(x[1]), reverse=True)[:n]`
(`sorted` is stable, items are in dict insertion order). -/
def get_top_attributes_for_cluster (cd : List (Int × List (String × ℚ)))
    (cluster_id : Int) (n : ℕ) : List (String × ℚ) :=
  match cd.lookup cluster_id with
  | none => []
  | some attrs => (sortDescBy (fun x => |x.2|) attrs).take n

/-!
### AttributeProfiler: radar-chart comparison vectors

`src/utils/visualizations.py`, `create_radar_chart`, lines 167–203.
Only the data computation is modelled (figure construction is
presentation).  Attribute dicts are association lists in insertion order
with distinct keys (the callers build them from dict comprehensions). -/

/-- The fixed preferred attribute list `key_attrs` of `create_radar_chart`. -/
def key_attrs : List String :=
  ["Pas", "Tec", "Vis", "Dec", "Fir", "Dri", "Fin", "Tck", "Mar", "Pos", "Ant", "Cmp"]

/-- `available_attrs`: the preferred codes present in the player's data;
when none are present, fall back to the first 12 of the player's own
attribute codes (`list(player_attrs.keys())[:12]`). -/
def radar_available_attrs (player_attrs : List (String × ℚ)) : List String :=
  let avail := key_attrs.filter fun a => (player_attrs.lookup a).isSome
  if avail.isEmpty then (player_attrs.map Prod.fst).take 12 else avail

/-- The player trace radii: `player_attrs.get(attr, 0)` fed through the
display transform, in `available_attrs` order. -/
def radar_player_r (player_attrs : List (String × ℚ)) : List ℚ :=
  (radar_available_attrs player_attrs).map fun a =>
    normalize_for_display ((player_attrs.lookup a).getD 0)

/-- The centroid trace radii: `cluster_attrs.get(attr, 0)` fed through the
display transform, over the same `available_attrs` order (the source adds
this trace whenever `cluster_attrs` is nonempty). -/
def radar_cluster_r (player_attrs cluster_attrs : List (String × ℚ)) : List ℚ :=
  (radar_available_attrs player_attrs).map fun a =>
    normalize_for_display ((cluster_attrs.lookup a).getD 0)

/-!
### NameNormalizer

`src/app.py`, `normalize_text`, lines 19–67: apply the fixed
`special_char_map` substitutions, decompose with
`unicodedata.normalize('NFD', ...)`, drop characters of Unicode category
`Mn`, then `.lower()`.

The Unicode data (`unicodedata`) is modelled by finite tables holding the
Unicode Character Database entries for every character the substitution
table mentions plus the stroked-O letters Ǿ/ǿ (U+01FE/U+01FF, whose
canonical decomposition has the special-mapped Ø/ø as base) and the
combining marks those decompositions produce.  Characters outside the
tables are treated as non-decomposable, non-combining, and lower-cased by
the ASCII rule — the modelling boundary for the rest of Unicode. -/

/-- The `special_char_map` of `normalize_text`, in source order.  Python
applies `str.replace` once per pair over the whole string; since the keys
are pairwise distinct and no replacement character is itself a key, this
equals a single per-character substitution. -/
def special_char_map : List (Char × Char) :=
  [('Ø', 'O'), ('ø', 'o'),
   ('Ö', 'O'), ('ö', 'o'),
   ('Ü', 'U'), ('ü', 'u'),
   ('Ä', 'A'), ('ä', 'a'),
   ('Å', 'A'), ('å', 'a'),
   ('É', 'E'), ('é', 'e'),
   ('È', 'E'), ('è', 'e'),
   ('Ê', 'E'), ('ê', 'e'),
   ('Ë', 'E'), ('ë', 'e'),
   ('Í', 'I'), ('í', 'i'),
   ('Ì', 'I'), ('ì', 'i'),
   ('Î', 'I'), ('î', 'i'),
   ('Ï', 'I'), ('ï', 'i'),
   ('Ó', 'O'), ('ó', 'o'),
   ('Ò', 'O'), ('ò', 'o'),
   ('Ô', 'O'), ('ô', 'o'),
   ('Õ', 'O'), ('õ', 'o'),
   ('Ú', 'U'), ('ú', 'u'),
   ('Ù', 'U'), ('ù', 'u'),
   ('Û', 'U'), ('û', 'u'),
   ('Ç', 'C'), ('ç', 'c'),
   ('Ñ', 'N'), ('ñ', 'n'),
   ('Ş', 'S'), ('ş', 's'),
   ('İ', 'I'), ('ı', 'i'),
   ('Ğ', 'G'), ('ğ', 'g')]

def mapChar (c : Char) : Char :=
  (special_char_map.lookup c).getD c

/-- Combining marks: grave, acute, circumflex, tilde, breve, dot above,
diaeresis, ring above, cedilla. -/
def markGrave : Char := Char.ofNat 0x300
def markAcute : Char := Char.ofNat 0x301
def markCirc : Char := Char.ofNat 0x302
def markTilde : Char := Char.ofNat 0x303
def markBreve : Char := Char.ofNat 0x306
def markDotAbove : Char := Char.ofNat 0x307
def markDiaeresis : Char := Char.ofNat 0x308
def markRing : Char := Char.ofNat 0x30A
def markCedilla : Char := Char.ofNat 0x327

/-- Canonical (NFD, fully decomposed) decompositions from the Unicode
Character Database, for the modelled characters.  `Ø`, `ø` and `ı` have
no canonical decomposition and are deliberately absent. -/
def nfdTable : List (Char × List Char) :=
  [('Ö', ['O', markDiaeresis]), ('ö', ['o', markDiaeresis]),
   ('Ü', ['U', markDiaeresis]), ('ü', ['u', markDiaeresis]),
   ('Ä', ['A', markDiaeresis]), ('ä', ['a', markDiaeresis]),
   ('Å', ['A', markRing]), ('å', ['a', markRing]),
   ('É', ['E', markAcute]), ('é', ['e', markAcute]),
   ('È', ['E', markGrave]), ('è', ['e', markGrave]),
   ('Ê', ['E', markCirc]), ('ê', ['e', markCirc]),
   ('Ë', ['E', markDiaeresis]), ('ë', ['e', markDiaeresis]),
   ('Í', ['I', markAcute]), ('í', ['i', markAcute]),
   ('Ì', ['I', markGrave]), ('ì', ['i', markGrave]),
   ('Î', ['I', markCirc]), ('î', ['i', markCirc]),
   ('Ï', ['I', markDiaeresis]), ('ï', ['i', markDiaeresis]),
   ('Ó', ['O', markAcute]), ('ó', ['o', markAcute]),
   ('Ò', ['O', markGrave]), ('ò', ['o', markGrave]),
   ('Ô', ['O', markCirc]), ('ô', ['o', markCirc]),
   ('Õ', ['O', markTilde]), ('õ', ['o', markTilde]),
   ('Ú', ['U', markAcute]), ('ú', ['u', markAcute]),
   ('Ù', ['U', markGrave]), ('ù', ['u', markGrave]),
   ('Û', ['U', markCirc]), ('û', ['u', markCirc]),
   ('Ç', ['C', markCedilla]), ('ç', ['c', markCedilla]),
   ('Ñ', ['N', markTilde]), ('ñ', ['n', markTilde]),
   ('Ş', ['S', markCedilla]), ('ş', ['s', markCedilla]),
   ('İ', ['I', markDotAbove]),
   ('Ğ', ['G', markBreve]), ('ğ', ['g', markBreve]),
   ('Ǿ', ['Ø', markAcute]), ('ǿ', ['ø', markAcute])]

/-- `unicodedata.normalize('NFD', ·)` per character. -/
def nfdChar (c : Char) : List Char :=
  (nfdTable.lookup c).getD [c]

/-- The modelled category-`Mn` (nonspacing combining mark) characters. -/
def mnList : List Char :=
  [markGrave, markAcute, markCirc, markTilde, markBreve,
   markDotAbove, markDiaeresis, markRing, markCedilla]

/-- `unicodedata.category(c) == 'Mn'`. -/
def isMn (c : Char) : Bool :=
  mnList.contains c

/-- Python `str.lower()` full case mapping for the modelled non-ASCII
characters; note `'İ'.lower()` is the two-character string `i` +
combining dot above. -/
def lowerTable : List (Char × List Char) :=
  [('Ö', ['ö']), ('Ü', ['ü']), ('Ä', ['ä']), ('Å', ['å']),
   ('É', ['é']), ('È', ['è']), ('Ê', ['ê']), ('Ë', ['ë']),
   ('Í', ['í']), ('Ì', ['ì']), ('Î', ['î']), ('Ï', ['ï']),
   ('Ó', ['ó']), ('Ò', ['ò']), ('Ô', ['ô']), ('Õ', ['õ']),
   ('Ú', ['ú']), ('Ù', ['ù']), ('Û', ['û']),
   ('Ç', ['ç']), ('Ñ', ['ñ']), ('Ş', ['ş']), ('Ğ', ['ğ']),
   ('Ø', ['ø']), ('Ǿ', ['ǿ']),
   ('İ', ['i', markDotAbove])]

def pyLowerChar (c : Char) : List Char :=
  (lowerTable.lookup c).getD [c.toLower]

/-- Python `str.lower()` over a whole string. -/
def pyLower (s : List Char) : List Char :=
  s.flatMap pyLowerChar

/-- `normalize_text` of `src/app.py`: substitutions, NFD decomposition,
strip `Mn` characters, lower-case.  (The `pd.isna(text) or text == ""`
guard returns `""`, which this pipeline also does on the empty string.) -/
def normalize_text (s : List Char) : List Char :=
  pyLower (((s.map mapChar).flatMap nfdChar).filter fun c => !(isMn c))

/-- The whole pipeline restricted to a single input character. -/
def pipelineChar (c : Char) : List Char :=
  pyLower ((nfdChar (mapChar c)).filter fun c => !(isMn c))

/-- Every character any table mentions as a key, plus the combining
marks.  Outside this list all table lookups take their default branch. -/
def specialList : List Char :=
  special_char_map.map Prod.fst ++ ['Ǿ', 'ǿ'] ++ mnList

/-!
### SearchIndex

`src/app.py`, lines 215–218 and 238–249: `player_names` is
`sorted(filtered_players_df['Name'].tolist())`; `search_index` maps each
name to `normalize_text(name)`; for a truthy `search_query` the matches
are `[name for name in player_names if normalized_query in search_index[name]]`,
and a falsy (empty) query leaves `matching_players = []`.

Python's `in` on strings is the substring test, modelled by
`strContains`; Python's `sorted` on strings is the lexicographic order by
code point, which is exactly the `LinearOrder` on `List Char`. -/

/-- `s.startswith(q)` on code-point lists. -/
def strStartsWith : List Char → List Char → Bool
  | _, [] => true
  | [], _ :: _ => false
  | a :: s, b :: q => a == b && strStartsWith s q

/-- Python `q in s` (substring containment) on code-point lists. -/
def strContains : List Char → List Char → Bool
  | [], q => q.isEmpty
  | a :: s, q => strStartsWith (a :: s) q || strContains s q

/-- `player_names = sorted(filtered_players_df['Name'].tolist())`. -/
def search_player_names (names : List (List Char)) : List (List Char) :=
  sortAscBy (fun nm => nm) names

/-- The `matching_players` computation for a given query. -/
def search_matching_players (names : List (List Char)) (q : List Char) :
    List (List Char) :=
  if q.isEmpty then []
  else (search_player_names names).filter fun nm =>
    strContains (normalize_text nm) (normalize_text q)

/-! ### Sample data used by witnesses -/

def samplePlayerA : PlayerRow := ⟨"Alice", "FC", 150, 160, 1, 0, 0⟩

def samplePlayerB : PlayerRow := ⟨"Bob", "FC", 140, 150, 1, 1, 0⟩

def sampleDF : List PlayerRow := [samplePlayerA, samplePlayerB]

def sampleAttrs : List (String × ℚ) := [("Xyz", 2)]

def sampleNames : List (List Char) :=
  [['B', 'o', 'b'], ['Ø', 'd', 'e', 'g', 'a', 'a', 'r', 'd']]

/-!
## Supporting lemmas
-/

theorem mem_insertAscBy (key : α → β) (a x : α) (l : List α) :
    x ∈ insertAscBy key a l ↔ x = a ∨ x ∈ l := by
  induction l with
  | nil => simp [insertAscBy]
  | cons b l ih =>
    by_cases h : key a ≤ key b
    · simp [insertAscBy, h]
    · simp only [insertAscBy, if_neg h, List.mem_cons, ih]
      tauto

theorem mem_sortAscBy (key : α → β) (x : α) (l : List α) :
    x ∈ sortAscBy key l ↔ x ∈ l := by
  induction l with
  | nil => simp [sortAscBy]
  | cons a l ih => simp [sortAscBy, mem_insertAscBy, ih]

theorem length_insertAscBy (key : α → β) (a : α) (l : List α) :
    (insertAscBy key a l).length = l.length + 1 := by
  induction l with
  | nil => simp [insertAscBy]
  | cons b l ih =>
    by_cases h : key a ≤ key b
    · simp [insertAscBy, h]
    · simp [insertAscBy, h, ih]

theorem length_sortAscBy (key : α → β) (l : List α) :
    (sortAscBy key l).length = l.length := by
  induction l with
  | nil => rfl
  | cons a l ih => simp [sortAscBy, length_insertAscBy, ih]

theorem mem_insertDescBy (key : α → β) (a x : α) (l : List α) :
    x ∈ insertDescBy key a l ↔ x = a ∨ x ∈ l := by
  induction l with
  | nil => simp [insertDescBy]
  | cons b l ih =>
    by_cases h : key b ≤ key a
    · simp [insertDescBy, h]
    · simp only [insertDescBy, if_neg h, List.mem_cons, ih]
      tauto

theorem mem_sortDescBy (key : α → β) (x : α) (l : List α) :
    x ∈ sortDescBy key l ↔ x ∈ l := by
  induction l with
  | nil => simp [sortDescBy]
  | cons a l ih => simp [sortDescBy, mem_insertDescBy, ih]

theorem length_insertDescBy (key : α → β) (a : α) (l : List α) :
    (insertDescBy key a l).length = l.length + 1 := by
  induction l with
  | nil => simp [insertDescBy]
  | cons b l ih =>
    by_cases h : key b ≤ key a
    · simp [insertDescBy, h]
    · simp [insertDescBy, h, ih]

theorem length_sortDescBy (key : α → β) (l : List α) :
    (sortDescBy key l).length = l.length := by
  induction l with
  | nil => rfl
  | cons a l ih => simp [sortDescBy, length_insertDescBy, ih]

/-- Ascending stability as a lexicographic invariant: when the input is
tagged with strictly increasing `tag`s (for instance original row
positions), the stable ascending sort is sorted by the pair
(key ascending, tag ascending): ties are broken by the original order. -/
theorem pairwise_lex_insertAscBy (key : α → β) (tag : α → ℕ) (a : α) (l : List α)
    (hl : l.Pairwise fun x y => key x < key y ∨ (key x = key y ∧ tag x < tag y))
    (ha : ∀ y ∈ l, tag a < tag y) :
    (insertAscBy key a l).Pairwise
      fun x y => key x < key y ∨ (key x = key y ∧ tag x < tag y) := by
  induction l with
  | nil => simp [insertAscBy]
  | cons b l ih =>
    rcases List.pairwise_cons.mp hl with ⟨hb, hl2⟩
    by_cases h : key a ≤ key b
    · rw [insertAscBy, if_pos h]
      refine List.pairwise_cons.mpr ⟨?_, hl⟩
      intro z hz
      rcases List.mem_cons.mp hz with rfl | hzl
      · rcases lt_or_eq_of_le h with hlt | heq
        · exact Or.inl hlt
        · exact Or.inr ⟨heq, ha z (List.mem_cons_self _ _)⟩
      · have hbz := hb z hzl
        rcases hbz with hlt | ⟨heq, _⟩
        · exact Or.inl (lt_of_le_of_lt h hlt)
        · rcases lt_or_eq_of_le h with hlt2 | heq2
          · exact Or.inl (lt_of_lt_of_le hlt2 (le_of_eq heq))
          · exact Or.inr ⟨heq2.trans heq, ha z (List.mem_cons_of_mem _ hzl)⟩
    · rw [insertAscBy, if_neg h]
      push_neg at h
      refine List.pairwise_cons.mpr ⟨?_, ?_⟩
      · intro z hz
        rcases (mem_insertAscBy key a z l).mp hz with rfl | hzl
        · exact Or.inl h
        · exact hb z hzl
      · exact ih hl2 fun y hy => ha y (List.mem_cons_of_mem _ hy)

theorem pairwise_lex_sortAscBy (key : α → β) (tag : α → ℕ) (l : List α)
    (h : l.Pairwise fun x y => tag x < tag y) :
    (sortAscBy key l).Pairwise
      fun x y => key x < key y ∨ (key x = key y ∧ tag x < tag y) := by
  induction l with
  | nil => simp [sortAscBy]
  | cons a l ih =>
    rcases List.pairwise_cons.mp h with ⟨ha, hl⟩
    exact pairwise_lex_insertAscBy key tag a (sortAscBy key l) (ih hl)
      fun y hy => ha y ((mem_sortAscBy key y l).mp hy)

/-- Descending stability: with strictly increasing `tag`s, the stable
descending sort is sorted by (key descending, tag ascending). -/
theorem pairwise_lex_insertDescBy (key : α → β) (tag : α → ℕ) (a : α) (l : List α)
    (hl : l.Pairwise fun x y => key y < key x ∨ (key x = key y ∧ tag x < tag y))
    (ha : ∀ y ∈ l, tag a < tag y) :
    (insertDescBy key a l).Pairwise
      fun x y => key y < key x ∨ (key x = key y ∧ tag x < tag y) := by
  induction l with
  | nil => simp [insertDescBy]
  | cons b l ih =>
    rcases List.pairwise_cons.mp hl with ⟨hb, hl2⟩
    by_cases h : key b ≤ key a
    · rw [insertDescBy, if_pos h]
      refine List.pairwise_cons.mpr ⟨?_, hl⟩
      intro z hz
      rcases List.mem_cons.mp hz with rfl | hzl
      · rcases lt_or_eq_of_le h with hlt | heq
        · exact Or.inl hlt
        · exact Or.inr ⟨heq.symm, ha z (List.mem_cons_self _ _)⟩
      · have hbz := hb z hzl
        rcases hbz with hlt | ⟨heq, _⟩
        · exact Or.inl (lt_of_lt_of_le hlt h)
        · rcases lt_or_eq_of_le h with hlt2 | heq2
          · exact Or.inl (lt_of_le_of_lt (le_of_eq heq.symm) hlt2)
          · exact Or.inr ⟨heq2.symm.trans heq, ha z (List.mem_cons_of_mem _ hzl)⟩
    · rw [insertDescBy, if_neg h]
      push_neg at h
      refine List.pairwise_cons.mpr ⟨?_, ?_⟩
      · intro z hz
        rcases (mem_insertDescBy key a z l).mp hz with rfl | hzl
        · exact Or.inl h
        · exact hb z hzl
      · exact ih hl2 fun y hy => ha y (List.mem_cons_of_mem _ hy)

theorem pairwise_lex_sortDescBy (key : α → β) (tag : α → ℕ) (l : List α)
    (h : l.Pairwise fun x y => tag x < tag y) :
    (sortDescBy key l).Pairwise
      fun x y => key y < key x ∨ (key x = key y ∧ tag x < tag y) := by
  induction l with
  | nil => simp [sortDescBy]
  | cons a l ih =>
    rcases List.pairwise_cons.mp h with ⟨ha, hl⟩
    exact pairwise_lex_insertDescBy key tag a (sortDescBy key l) (ih hl)
      fun y hy => ha y ((mem_sortDescBy key y l).mp hy)

/-- Plain sortedness of the ascending sort. -/
theorem pairwise_le_insertAscBy (key : α → β) (a : α) (l : List α)
    (hl : l.Pairwise fun x y => key x ≤ key y) :
    (insertAscBy key a l).Pairwise fun x y => key x ≤ key y := by
  induction l with
  | nil => simp [insertAscBy]
  | cons b l ih =>
    rcases List.pairwise_cons.mp hl with ⟨hb, hl2⟩
    by_cases h : key a ≤ key b
    · rw [insertAscBy, if_pos h]
      refine List.pairwise_cons.mpr ⟨?_, hl⟩
      intro z hz
      rcases List.mem_cons.mp hz with rfl | hzl
      · exact h
      · exact le_trans h (hb z hzl)
    · rw [insertAscBy, if_neg h]
      push_neg at h
      refine List.pairwise_cons.mpr ⟨?_, ih hl2⟩
      intro z hz
      rcases (mem_insertAscBy key a z l).mp hz with rfl | hzl
      · exact le_of_lt h
      · exact hb z hzl

theorem pairwise_le_sortAscBy (key : α → β) (l : List α) :
    (sortAscBy key l).Pairwise fun x y => key x ≤ key y := by
  induction l with
  | nil => simp [sortAscBy]
  | cons a l ih => exact pairwise_le_insertAscBy key a (sortAscBy key l) ih

/-- Plain sortedness of the descending sort. -/
theorem pairwise_ge_insertDescBy (key : α → β) (a : α) (l : List α)
    (hl : l.Pairwise fun x y => key y ≤ key x) :
    (insertDescBy key a l).Pairwise fun x y => key y ≤ key x := by
  induction l with
  | nil => simp [insertDescBy]
  | cons b l ih =>
    rcases List.pairwise_cons.mp hl with ⟨hb, hl2⟩
    by_cases h : key b ≤ key a
    · rw [insertDescBy, if_pos h]
      refine List.pairwise_cons.mpr ⟨?_, hl⟩
      intro z hz
      rcases List.mem_cons.mp hz with rfl | hzl
      · exact h
      · exact le_trans (hb z hzl) h
    · rw [insertDescBy, if_neg h]
      push_neg at h
      refine List.pairwise_cons.mpr ⟨?_, ih hl2⟩
      intro z hz
      rcases (mem_insertDescBy key a z l).mp hz with rfl | hzl
      · exact le_of_lt h
      · exact hb z hzl

theorem pairwise_ge_sortDescBy (key : α → β) (l : List α) :
    (sortDescBy key l).Pairwise fun x y => key y ≤ key x := by
  induction l with
  | nil => simp [sortDescBy]
  | cons a l ih => exact pairwise_ge_insertDescBy key a (sortDescBy key l) ih

/-- The stable sort of a tagged list projects to the stable sort of the
projections: sorting commutes with forgetting the tags. -/
theorem map_snd_insertAscBy (key : α → β) (a : ℕ × α) (l : List (ℕ × α)) :
    (insertAscBy (fun p => key p.2) a l).map Prod.snd
      = insertAscBy key a.2 (l.map Prod.snd) := by
  induction l with
  | nil => simp [insertAscBy]
  | cons b l ih =>
    by_cases h : key a.2 ≤ key b.2
    · simp [insertAscBy, h]
    · simp [insertAscBy, h, ih]

theorem map_snd_sortAscBy (key : α → β) (l : List (ℕ × α)) :
    (sortAscBy (fun p => key p.2) l).map Prod.snd
      = sortAscBy key (l.map Prod.snd) := by
  induction l with
  | nil => rfl
  | cons a l ih => simp [sortAscBy, map_snd_insertAscBy, ih]

theorem map_snd_insertDescBy (key : α → β) (a : ℕ × α) (l : List (ℕ × α)) :
    (insertDescBy (fun p => key p.2) a l).map Prod.snd
      = insertDescBy key a.2 (l.map Prod.snd) := by
  induction l with
  | nil => simp [insertDescBy]
  | cons b l ih =>
    by_cases h : key b.2 ≤ key a.2
    · simp [insertDescBy, h]
    · simp [insertDescBy, h, ih]

theorem map_snd_sortDescBy (key : α → β) (l : List (ℕ × α)) :
    (sortDescBy (fun p => key p.2) l).map Prod.snd
      = sortDescBy key (l.map Prod.snd) := by
  induction l with
  | nil => rfl
  | cons a l ih => simp [sortDescBy, map_snd_insertDescBy, ih]

/-- Positions produced by `List.enum` are strictly increasing. -/
theorem pairwise_fst_lt_enum (l : List α) :
    l.enum.Pairwise fun x y => x.1 < y.1 := by
  rw [List.pairwise_iff_get]
  intro i j hij
  have hi := i.isLt
  have hj := j.isLt
  simp only [List.get_eq_getElem, List.getElem_enum]
  simpa using hij


theorem lookup_none {γ : Type*} (t : List (Char × γ)) (c : Char)
    (h : ∀ p ∈ t, p.1 ≠ c) : t.lookup c = none := by
  induction t with
  | nil => rfl
  | cons p t ih =>
    have hp : (c == p.1) = false :=
      beq_eq_false_iff_ne.mpr fun hc => h p (List.mem_cons_self _ _) hc.symm
    obtain ⟨k, v⟩ := p
    simp only [List.lookup, hp]
    exact ih fun q hq => h q (List.mem_cons_of_mem _ hq)

theorem mapChar_default (c : Char) (h : c ∉ specialList) : mapChar c = c := by
  have hk : ∀ p ∈ special_char_map, p.1 ∈ specialList := by decide
  unfold mapChar
  rw [lookup_none _ _ fun p hp he => h (by rw [← he]; exact hk p hp)]
  rfl

theorem nfdChar_default (c : Char) (h : c ∉ specialList) : nfdChar c = [c] := by
  have hk : ∀ p ∈ nfdTable, p.1 ∈ specialList := by decide
  unfold nfdChar
  rw [lookup_none _ _ fun p hp he => h (by rw [← he]; exact hk p hp)]
  rfl

theorem isMn_default (c : Char) (h : c ∉ specialList) : isMn c = false := by
  have hk : ∀ d ∈ mnList, d ∈ specialList := by decide
  unfold isMn
  rcases hc : mnList.contains c with _ | _
  · rfl
  · exact absurd (hk c (List.elem_iff.mp hc)) h

theorem pyLowerChar_default (c : Char) (h : c ∉ specialList) :
    pyLowerChar c = [c.toLower] := by
  have hk : ∀ p ∈ lowerTable, p.1 ∈ specialList := by decide
  unfold pyLowerChar
  rw [lookup_none _ _ fun p hp he => h (by rw [← he]; exact hk p hp)]
  rfl

theorem char_toNat_ofNat {n : ℕ} (h : n < 55296) : (Char.ofNat n).toNat = n := by
  unfold Char.ofNat
  rw [dif_pos (Or.inl h : n.isValidChar)]
  rfl

theorem toLower_of_not_upper (c : Char) (h : ¬(65 ≤ c.toNat ∧ c.toNat ≤ 90)) :
    c.toLower = c := by
  unfold Char.toLower
  rw [if_neg]
  intro hc
  exact h ⟨hc.1, hc.2⟩

theorem toNat_toLower_of_upper (c : Char) (h : 65 ≤ c.toNat ∧ c.toNat ≤ 90) :
    c.toLower.toNat = c.toNat + 32 := by
  unfold Char.toLower
  rw [if_pos ⟨h.1, h.2⟩]
  exact char_toNat_ofNat (by omega)

/-- Outside the modelled special characters, `toLower` lands outside them
again and is idempotent. -/
theorem toLower_inert (c : Char) (h : c ∉ specialList) :
    c.toLower ∉ specialList ∧ c.toLower.toLower = c.toLower := by
  have hbig : ∀ d ∈ specialList, 191 < d.toNat := by decide
  by_cases hu : 65 ≤ c.toNat ∧ c.toNat ≤ 90
  · have ht := toNat_toLower_of_upper c hu
    constructor
    · intro hmem
      have := hbig _ hmem
      omega
    · exact toLower_of_not_upper _ (by omega)
  · rw [toLower_of_not_upper c hu]
    exact ⟨h, toLower_of_not_upper c hu⟩

theorem pipelineChar_default (c : Char) (h : c ∉ specialList) :
    pipelineChar c = [c.toLower] := by
  unfold pipelineChar
  rw [mapChar_default c h, nfdChar_default c h]
  simp [isMn_default c h, pyLower, pyLowerChar_default c h]

/-- Per-character idempotence of the normalization pipeline, for every
character except Ǿ and ǿ. -/
theorem pipelineChar_idem (c : Char) (h1 : c ≠ 'Ǿ') (h2 : c ≠ 'ǿ') :
    (pipelineChar c).flatMap pipelineChar = pipelineChar c := by
  by_cases hs : c ∈ specialList
  · have hall : specialList.all (fun d => d == 'Ǿ' || d == 'ǿ' ||
        ((pipelineChar d).flatMap pipelineChar == pipelineChar d)) = true := by decide
    have hc := List.all_eq_true.mp hall c hs
    simp only [Bool.or_eq_true, beq_iff_eq] at hc
    rcases hc with (hc | hc) | hc
    · exact absurd hc h1
    · exact absurd hc h2
    · exact hc
  · rw [pipelineChar_default c hs]
    obtain ⟨hns, hidem⟩ := toLower_inert c hs
    simp only [List.flatMap_cons, List.flatMap_nil, List.append_nil]
    rw [pipelineChar_default _ hns, hidem]

/-- Per-character cleanliness: the pipeline's output contains no
combining mark and is fixed by lower-casing. -/
theorem pipelineChar_clean (c : Char) :
    ((pipelineChar c).all fun d => !(isMn d)) = true ∧
    pyLower (pipelineChar c) = pipelineChar c := by
  by_cases hs : c ∈ specialList
  · have hall : specialList.all (fun d =>
        ((pipelineChar d).all fun e => !(isMn e)) &&
        (pyLower (pipelineChar d) == pipelineChar d)) = true := by decide
    have hc := List.all_eq_true.mp hall c hs
    simp only [Bool.and_eq_true, beq_iff_eq] at hc
    exact hc
  · rw [pipelineChar_default c hs]
    obtain ⟨hns, hidem⟩ := toLower_inert c hs
    constructor
    · simp [isMn_default _ hns]
    · simp only [pyLower, List.flatMap_cons, List.flatMap_nil, List.append_nil]
      rw [pyLowerChar_default _ hns, hidem]

/-- The whole normalization is the per-character pipeline glued by
`flatMap`. -/
theorem normalize_text_eq_flatMap (s : List Char) :
    normalize_text s = s.flatMap pipelineChar := by
  induction s with
  | nil => rfl
  | cons c s ih =>
    simp only [normalize_text, pipelineChar, pyLower, List.map_cons,
      List.flatMap_cons, List.filter_append, List.flatMap_append] at *
    rw [ih]

theorem flatMap_congr_of_mem {γ δ : Type*} {s : List γ} {f g : γ → List δ}
    (h : ∀ c ∈ s, f c = g c) : s.flatMap f = s.flatMap g := by
  induction s with
  | nil => rfl
  | cons c s ih =>
    simp only [List.flatMap_cons]
    rw [h c (List.mem_cons_self _ _), ih fun d hd => h d (List.mem_cons_of_mem _ hd)]


theorem strStartsWith_iff (s q : List Char) :
    strStartsWith s q = true ↔ ∃ t, s = q ++ t := by
  induction q generalizing s with
  | nil =>
    cases s with
    | nil => simp [strStartsWith]
    | cons a s => simp [strStartsWith]
  | cons b q ih =>
    cases s with
    | nil => simp [strStartsWith]
    | cons a s => simp [strStartsWith, ih]

theorem strContains_iff (s q : List Char) :
    strContains s q = true ↔ ∃ u v, s = u ++ q ++ v := by
  induction s with
  | nil =>
    simp only [strContains, List.isEmpty_iff]
    constructor
    · rintro rfl
      exact ⟨[], [], rfl⟩
    · rintro ⟨u, v, huv⟩
      rcases List.append_eq_nil.mp (List.append_eq_nil.mp huv.symm).1 with ⟨-, hq⟩
      exact hq
  | cons a s ih =>
    simp only [strContains, Bool.or_eq_true, strStartsWith_iff, ih]
    constructor
    · rintro (⟨t, ht⟩ | ⟨u, v, huv⟩)
      · exact ⟨[], t, by simp [ht]⟩
      · exact ⟨a :: u, v, by simp [huv]⟩
    · rintro ⟨u, v, huv⟩
      cases u with
      | nil =>
        left
        exact ⟨v, by simpa using huv⟩
      | cons x u =>
        right
        rw [List.cons_append, List.cons_append, List.cons.injEq] at huv
        exact ⟨u, v, huv.2⟩


/-!
## Claim theorems
-/

/-- C1 counterexample: the claim asserts `normalize_for_display(3) == 20.0`,
but the code computes `10 + 3 * 3.33 = 19.99`, which the clamp leaves
alone; the result is not `20`. -/
theorem C1_display_at_three_not_twenty : normalize_for_display 3 ≠ 20 := by
  unfold normalize_for_display
  rw [min_eq_right (by norm_num), max_eq_right (by norm_num)]
  norm_num

/-- C1 (amended): the display normalization maps a z-score `z` to
`clamp(10 + z * 3.33, 0, 20)`; for input 0 it returns exactly 10, for
input 3 it returns 19.99 (not 20: `3 * 3.33 = 9.99` falls inside the
clamp), for input −3 it returns 0.01 (not 0), and for input 10 it
returns exactly 20 (clamped). -/
theorem C1_display_normalization_values :
    normalize_for_display 0 = 10 ∧
    normalize_for_display 3 = 1999 / 100 ∧
    normalize_for_display (-3) = 1 / 100 ∧
    normalize_for_display 10 = 20 := by
  refine ⟨?_, ?_, ?_, ?_⟩ <;>
    · unfold normalize_for_display
      rw [min_def, max_def]
      norm_num

/-- C3 counterexample: name normalization is not idempotent.  On the
single-character string Ǿ (U+01FE) it yields `ø` — NFD decomposes Ǿ to
`Ø` plus a combining acute, the mark is stripped and `Ø` is lower-cased —
while a second application sends `ø` through the special-character table
to `o`. -/
theorem C3_not_idempotent_on_stroked_O :
    normalize_text (normalize_text ['Ǿ']) ≠ normalize_text ['Ǿ'] := by decide

/-- C3 (amended): `normalize_text` is idempotent on every string that
contains neither Ǿ (U+01FE) nor ǿ (U+01FF) — the characters whose
canonical decomposition has the special-mapped letter Ø/ø as its base.
For such strings, `normalize(normalize(s)) = normalize(s)`. -/
theorem C3_normalize_idempotent_away_from_stroked_O (s : List Char)
    (h1 : 'Ǿ' ∉ s) (h2 : 'ǿ' ∉ s) :
    normalize_text (normalize_text s) = normalize_text s := by
  rw [normalize_text_eq_flatMap s, normalize_text_eq_flatMap, List.flatMap_assoc]
  exact flatMap_congr_of_mem fun c hc =>
    pipelineChar_idem c (fun e => h1 (by rw [← e]; exact hc))
      (fun e => h2 (by rw [← e]; exact hc))

/-- C3 witness: idempotence at the concrete name "José". -/
theorem C3_idempotent_witness :
    normalize_text (normalize_text ['J', 'o', 's', 'é'])
      = normalize_text ['J', 'o', 's', 'é'] :=
  C3_normalize_idempotent_away_from_stroked_O ['J', 'o', 's', 'é']
    (by decide) (by decide)

/-- C9: querying with an empty string returns the empty result sequence
for every search index — a valid state, not an error. -/
theorem C9_empty_query_empty_result (names : List (List Char)) :
    search_matching_players names [] = [] := rfl

/-- C10: for every input string, the output of name normalization
contains no Unicode combining-mark (category Mn) character, and it
equals its own lower-casing (so it contains no uppercase letters):
combining marks are stripped after NFD decomposition and the result is
lower-cased last. -/
theorem C10_normalize_output_clean (s : List Char) :
    ((normalize_text s).all fun c => !(isMn c)) = true ∧
    pyLower (normalize_text s) = normalize_text s := by
  rw [normalize_text_eq_flatMap]
  constructor
  · rw [List.all_eq_true]
    intro x hx
    obtain ⟨c, hc, hxc⟩ := List.mem_flatMap.mp hx
    exact List.all_eq_true.mp (pipelineChar_clean c).1 x hxc
  · show (s.flatMap pipelineChar).flatMap pyLowerChar = s.flatMap pipelineChar
    rw [List.flatMap_assoc]
    exact flatMap_congr_of_mem fun c hc => (pipelineChar_clean c).2

/-- C5: for every player row carrying the five `cluster_i_prob` scores,
the ranker returns exactly 3 `(cluster_id, probability)` pairs, sorted
descending by probability with equal scores in ascending cluster-id
order, and each reported probability is the row's raw score (no
renormalization). -/
theorem C5_top_cluster_probabilities (prob : ℕ → ℚ) :
    (get_top_cluster_probabilities prob).length = 3 ∧
    (get_top_cluster_probabilities prob).Pairwise
      (fun x y => y.2 < x.2 ∨ (x.2 = y.2 ∧ x.1 < y.1)) ∧
    ∀ x ∈ get_top_cluster_probabilities prob, x.1 < 5 ∧ x.2 = prob x.1 := by
  have htags : ((List.range 5).map fun i => (i, prob i)).Pairwise
      (fun x y => x.1 < y.1) := by
    rw [List.pairwise_map]
    exact List.pairwise_lt_range 5

  refine ⟨?_, ?_, ?_⟩
  · rw [get_top_cluster_probabilities, List.length_take, length_sortDescBy]
    simp
  · exact List.Pairwise.sublist (List.take_sublist _ _)
      (pairwise_lex_sortDescBy (fun x : ℕ × ℚ => x.2) (fun x : ℕ × ℚ => x.1) _ htags)
  · intro x hx
    have hx2 : x ∈ (List.range 5).map fun i => (i, prob i) :=
      (mem_sortDescBy _ _ _).mp (List.mem_of_mem_take hx)
    obtain ⟨i, hi, rfl⟩ := List.mem_map.mp hx2
    exact ⟨List.mem_range.mp hi, rfl⟩

/-- C2: for every target player, candidate table and `k`, the neighbor
search returns exactly `min k (number of same-cluster candidates
excluding the target)` entries; they are sorted ascending by distance
(squared distance and the source's `sqrt` distance order identically);
and the stable sort underlying `nsmallest(k, 'distance')` orders entries
by (distance ascending, original row position ascending), so
equal-distance ties keep the candidates' original table order; fewer
than `k` candidates simply give them all, with no padding and no
error. -/
theorem C2_find_similar_players (p : PlayerRow) (df : List PlayerRow) (n : ℕ) :
    (find_similar_players p df n).length = min n (similarCandidates p df).length ∧
    (similarCandidates p df).length
      = (df.filter fun q => q.role_cluster == p.role_cluster
          && !(q.Name == p.Name)).length ∧
    (find_similar_players p df n).Pairwise (fun x y => x.2 ≤ y.2) ∧
    sortAscBy (fun x => x.2) (similarCandidates p df)
      = (sortAscBy (fun y => y.2.2) (similarCandidates p df).enum).map Prod.snd ∧
    (sortAscBy (fun y => y.2.2) (similarCandidates p df).enum).Pairwise
      (fun x y => x.2.2 < y.2.2 ∨ (x.2.2 = y.2.2 ∧ x.1 < y.1)) := by
  refine ⟨?_, ?_, ?_, ?_, ?_⟩
  · rw [find_similar_players, List.length_take, length_sortAscBy]
  · rw [similarCandidates, List.filter_map, List.length_map, List.filter_filter]
    congr 1
    apply List.filter_congr
    intro q hq
    simp only [Function.comp]
    exact Bool.and_comm _ _
  · exact List.Pairwise.sublist (List.take_sublist _ _)
      (pairwise_le_sortAscBy (fun x : PlayerRow × ℚ => x.2) _)
  · rw [map_snd_sortAscBy, List.enum_map_snd]
  · exact pairwise_lex_sortAscBy (fun y : ℕ × PlayerRow × ℚ => y.2.2)
      (fun y : ℕ × PlayerRow × ℚ => y.1) _ (pairwise_fst_lt_enum _)

/-- C7: the neighbor search never returns the target player itself
(rows are excluded by name identity) and never returns a player whose
cluster differs from the target's. -/
theorem C7_excludes_self_and_other_clusters (p : PlayerRow)
    (df : List PlayerRow) (n : ℕ) (x : PlayerRow × ℚ)
    (hx : x ∈ find_similar_players p df n) :
    x.1.Name ≠ p.Name ∧ x.1.role_cluster = p.role_cluster := by
  have hx2 : x ∈ similarCandidates p df :=
    (mem_sortAscBy _ _ _).mp (List.mem_of_mem_take hx)
  rw [similarCandidates] at hx2
  rcases List.mem_filter.mp hx2 with ⟨hmem, hname⟩
  obtain ⟨q, hq, rfl⟩ := List.mem_map.mp hmem
  rcases List.mem_filter.mp hq with ⟨-, hcl⟩
  refine ⟨?_, ?_⟩
  · simpa using hname
  · simpa using hcl

/-- C7 witness: in the two-player sample table, the neighbor returned
for Alice is Bob, whose name differs and whose cluster matches. -/
theorem C7_excludes_witness :
    (samplePlayerB, dist2 samplePlayerA samplePlayerB).1.Name ≠ samplePlayerA.Name ∧
    (samplePlayerB, dist2 samplePlayerA samplePlayerB).1.role_cluster
      = samplePlayerA.role_cluster :=
  C7_excludes_self_and_other_clusters samplePlayerA sampleDF 5
    (samplePlayerB, dist2 samplePlayerA samplePlayerB)
    (List.mem_singleton.mpr rfl)

/-- C6: for every centroid store, cluster id present in it and `n`, the
top-attributes query returns the first `n` attributes of the stable
descending sort by absolute z-score (so ties keep attribute insertion
order: the tagged sort is ordered by (|z| descending, position
ascending)); and the spec's concrete scenario: centroid rows
(cluster 0, "Pas", 1.5) and (cluster 0, "Tck", −2.0) build to the store
`[(0, [("Pas", 1.5), ("Tck", -2.0)])]`, whose top-1 attributes are
`[("Tck", -2.0)]`. -/
theorem C6_top_attributes_for_cluster :
    (∀ (cd : List (Int × List (String × ℚ))) (cluster_id : Int) (n : ℕ)
        (attrs : List (String × ℚ)), cd.lookup cluster_id = some attrs →
        (get_top_attributes_for_cluster cd cluster_id n).length = min n attrs.length ∧
        (get_top_attributes_for_cluster cd cluster_id n).Pairwise
          (fun x y => |y.2| ≤ |x.2|) ∧
        get_top_attributes_for_cluster cd cluster_id n
          = ((sortDescBy (fun y => |y.2.2|) attrs.enum).map Prod.snd).take n ∧
        (sortDescBy (fun y => |y.2.2|) attrs.enum).Pairwise
          (fun x y => |y.2.2| < |x.2.2| ∨ (|x.2.2| = |y.2.2| ∧ x.1 < y.1)) ∧
        ∀ x ∈ get_top_attributes_for_cluster cd cluster_id n, x ∈ attrs) ∧
    get_centroids_dict [⟨0, "Pas", 3 / 2⟩, ⟨0, "Tck", -2⟩]
      = [(0, [("Pas", (3 : ℚ) / 2), ("Tck", -2)])] ∧
    get_top_attributes_for_cluster
        (get_centroids_dict [⟨0, "Pas", 3 / 2⟩, ⟨0, "Tck", -2⟩]) 0 1
      = [("Tck", -2)] := by
  refine ⟨?_, rfl, ?_⟩
  · intro cd cluster_id n attrs h
    have hdef : get_top_attributes_for_cluster cd cluster_id n
        = (sortDescBy (fun x => |x.2|) attrs).take n := by
      rw [get_top_attributes_for_cluster, h]
    have hcomm := map_snd_sortDescBy (fun x : String × ℚ => |x.2|) attrs.enum
    rw [List.enum_map_snd] at hcomm
    refine ⟨?_, ?_, ?_, ?_, ?_⟩
    · rw [hdef, List.length_take, length_sortDescBy]
    · rw [hdef]
      exact List.Pairwise.sublist (List.take_sublist _ _)
        (pairwise_ge_sortDescBy (fun x : String × ℚ => |x.2|) _)
    · rw [hdef, ← hcomm]
    · exact pairwise_lex_sortDescBy (fun y : ℕ × String × ℚ => |y.2.2|)
        (fun y : ℕ × String × ℚ => y.1) _ (pairwise_fst_lt_enum _)
    · intro x hx
      rw [hdef] at hx
      exact (mem_sortDescBy _ _ _).mp (List.mem_of_mem_take hx)
  · show (sortDescBy (fun x => |x.2|) [("Pas", (3 : ℚ) / 2), ("Tck", -2)]).take 1
      = [("Tck", -2)]
    simp only [sortDescBy, insertDescBy]
    rw [if_neg (by
      rw [abs_of_nonpos (by norm_num : (-2 : ℚ) ≤ 0),
        abs_of_nonneg (by norm_num : (0 : ℚ) ≤ 3 / 2)]
      norm_num)]
    rfl

/-- C6 witness: the general part applied to the concrete store of the
scenario, with the cluster-presence hypothesis discharged. -/
theorem C6_top_attributes_witness :
    (get_top_attributes_for_cluster
        [((0 : Int), [("Pas", (3 : ℚ) / 2), ("Tck", -2)])] 0 1).length = min 1 2 :=
  (C6_top_attributes_for_cluster.1 [((0 : Int), [("Pas", (3 : ℚ) / 2), ("Tck", -2)])]
    0 1 [("Pas", (3 : ℚ) / 2), ("Tck", -2)] rfl).1

/-- C4: for every non-empty query and every index built over a list of
player names, the query returns exactly the names whose normalized form
contains the normalized query as a substring, ordered ascending by the
original display name (code-point lexicographic order, Python's string
order). -/
theorem C4_search_query (names : List (List Char)) (q : List Char)
    (hq : q ≠ []) :
    (∀ nm, nm ∈ search_matching_players names q ↔
        nm ∈ names ∧ ∃ u v, normalize_text nm = u ++ normalize_text q ++ v) ∧
    (search_matching_players names q).Pairwise (· ≤ ·) := by
  have hne : q.isEmpty = false := by
    cases q with
    | nil => exact absurd rfl hq
    | cons a q => rfl
  have hred : search_matching_players names q
      = (search_player_names names).filter
          (fun nm => strContains (normalize_text nm) (normalize_text q)) := by
    rw [search_matching_players, hne]
    simp
  constructor
  · intro nm
    rw [hred, List.mem_filter, strContains_iff, search_player_names,
      mem_sortAscBy]
  · rw [hred]
    exact List.Pairwise.sublist (List.filter_sublist _)
      (pairwise_le_sortAscBy (fun nm : List Char => nm) names)

/-- C4 witness: querying the sample index with "o" returns a sorted
result containing "Ødegaard" (whose normalized form "odegaard" contains
the normalized query "o"). -/
theorem C4_search_query_witness :
    (search_matching_players sampleNames ['o']).Pairwise (· ≤ ·) ∧
    ['Ø', 'd', 'e', 'g', 'a', 'a', 'r', 'd'] ∈
      search_matching_players sampleNames ['o'] :=
  ⟨(C4_search_query sampleNames ['o'] (by decide)).2,
    ((C4_search_query sampleNames ['o'] (by decide)).1 _).mpr
      ⟨by decide, [], ['d', 'e', 'g', 'a', 'a', 'r', 'd'], by decide⟩⟩

/-- C8: in the radar-chart comparison, an attribute code missing from the
centroid source is treated as raw value 0 and so displays as the scale
midpoint 10; when none of the preferred codes is present in the player's
data the attribute axis falls back to the first 12 of the player's own
attribute codes; and the axis list is non-empty whenever the player has
any attribute data. -/
theorem C8_radar_comparison (player_attrs cluster_attrs : List (String × ℚ)) :
    (∀ (i : Fin (radar_available_attrs player_attrs).length),
        cluster_attrs.lookup ((radar_available_attrs player_attrs).get i) = none →
        (radar_cluster_r player_attrs cluster_attrs).getD i 0 = 10) ∧
    ((∀ a ∈ key_attrs, player_attrs.lookup a = none) →
        radar_available_attrs player_attrs = (player_attrs.map Prod.fst).take 12) ∧
    (player_attrs ≠ [] → radar_available_attrs player_attrs ≠ []) := by
  refine ⟨?_, ?_, ?_⟩
  · intro i hnone
    have hmap : radar_cluster_r player_attrs cluster_attrs
        = (radar_available_attrs player_attrs).map fun a =>
            normalize_for_display ((cluster_attrs.lookup a).getD 0) := rfl
    have hlen : (i : ℕ) < ((radar_available_attrs player_attrs).map fun a =>
        normalize_for_display ((cluster_attrs.lookup a).getD 0)).length := by
      simp
    rw [hmap, List.getD_eq_getElem _ _ hlen, List.getElem_map,
      ← List.get_eq_getElem, hnone]
    show normalize_for_display 0 = 10
    rw [normalize_for_display]
    norm_num
  · intro h
    have hfilter : (key_attrs.filter fun a => (player_attrs.lookup a).isSome) = [] := by
      rw [List.filter_eq_nil_iff]
      intro a ha
      rw [h a ha]
      simp
    simp [radar_available_attrs, hfilter]
  · intro hne
    by_cases he : (key_attrs.filter fun a => (player_attrs.lookup a).isSome) = []
    · simp only [radar_available_attrs, he, List.isEmpty_nil, if_pos]
      cases player_attrs with
      | nil => exact absurd rfl hne
      | cons p l => simp
    · have he2 : (key_attrs.filter fun a => (player_attrs.lookup a).isSome).isEmpty
          = false := List.isEmpty_eq_false.mpr he
      simp only [radar_available_attrs, he2]
      simpa using he

/-- C8 witness: for a player holding only the non-preferred attribute
"Xyz" and an empty centroid dict, the axis falls back to ["Xyz"], is
non-empty, and the centroid value displays as the midpoint 10. -/
theorem C8_radar_comparison_witness :
    (radar_cluster_r sampleAttrs []).getD 0 0 = 10 ∧
    radar_available_attrs sampleAttrs = (sampleAttrs.map Prod.fst).take 12 ∧
    radar_available_attrs sampleAttrs ≠ [] :=
  ⟨(C8_radar_comparison sampleAttrs []).1 ⟨0, by decide⟩ rfl,
    (C8_radar_comparison sampleAttrs []).2.1 (by decide),
    (C8_radar_comparison sampleAttrs []).2.2 (by decide)⟩

end PlayerRole
